import Mathlib

/-!
# Verification of the Moulinette SAGE X3 reconciliation engine

A shallow embedding of the reconciliation engine of the Moulinette
SAGE X3 repository (lot-date extraction, mask validation, gap
distribution over lots) together with the input-handling logic of the
frontend wizard (`StepEdit`, `StepSummary`, `StepUpload`), and proofs
of the documented properties.

The backend `engine.py` (class `InventoryEngine`) is not part of the
available sources — only its documentation (`backend/README.md`) and
the natural-language specification describe it — so the engine
operations are modelled from the specification, as flagged on each
definition.  The frontend components are translated directly from the
TypeScript sources.
-/

namespace Moulinette

/-! ## Calendar dates and the lot-date extractor -/

/-- A calendar date as extracted from a lot identifier. -/
structure LotDate where
  year : Nat
  month : Nat
  day : Nat
deriving DecidableEq, Repr

/-- Chronological sort key of a date: lexicographic on (year, month, day),
encoded as a natural number (months and days are two-digit). -/
def LotDate.key (d : LotDate) : Nat :=
  d.year * 10000 + d.month * 100 + d.day

def isLeapYear (y : Nat) : Bool :=
  (y % 4 == 0 && y % 100 != 0) || y % 400 == 0

def daysInMonth (y m : Nat) : Nat :=
  if m = 2 then (if isLeapYear y then 29 else 28)
  else if m = 4 ∨ m = 6 ∨ m = 9 ∨ m = 11 then 30
  else 31

/-- Validity of a calendar date: month between 1 and 12, day between 1 and
the length of that month. -/
def LotDate.valid (d : LotDate) : Bool :=
  1 ≤ d.month && d.month ≤ 12 && 1 ≤ d.day && d.day ≤ daysInMonth d.year d.month

def digitVal (c : Char) : Nat := c.toNat - '0'.toNat

def digitsToNat (cs : List Char) : Nat :=
  cs.foldl (fun a c => a * 10 + digitVal c) 0

/-- First window of 8 consecutive decimal digits in a character list
(the fixed positional pattern `\d{8}` of the extractor), if any. -/
def findDigitRun8 : List Char → Option (List Char)
  | [] => none
  | c :: rest =>
      let w := (c :: rest).take 8
      if w.length == 8 && w.all Char.isDigit then some w else findDigitRun8 rest

/-- Interpret 8 digit characters as a `YYYYMMDD` date. -/
def parseYYYYMMDD (cs : List Char) : LotDate :=
  { year := digitsToNat (cs.take 4)
    month := digitsToNat ((cs.drop 4).take 2)
    day := digitsToNat (cs.drop 6) }

/-- Modelled from the spec: `InventoryEngine.extract_lot_date` of the
backend `engine.py` is not among the available sources.  Per the spec it
applies a fixed positional pattern (an 8-digit `YYYYMMDD` run found by a
regular-expression search) to the lot identifier and returns a calendar
date, or a "not found" result when the pattern does not match or the
matched digits do not form a valid calendar date; it never raises. -/
def extract_lot_date (lotNumber : String) : Option LotDate :=
  match findDigitRun8 lotNumber.data with
  | none => none
  | some run =>
      let d := parseYYYYMMDD run
      if d.valid then some d else none

/-! ## Audit facts -/

/-- The audit action kinds used by the engine (spec §3 and §6):
quarantine detection, a lot exhausted during distribution, and a
residual gap that could not be absorbed. -/
inductive AuditKind
  | quarantineDetected
  | lotExhausted
  | residualUnresolved
deriving DecidableEq, Repr

/-- An append-only audit fact: an action kind plus a free-text detail. -/
structure AuditFact where
  kind : AuditKind
  detail : String
deriving DecidableEq, Repr

/-! ## Stock rows and the mask validator -/

/-- One line of the uploaded mask extract. -/
structure StockRow where
  article : String
  emplacement : String
  statut : String
  lot : String
  quantite : ℚ
  unite : String
deriving DecidableEq, Repr

/-- The depot/compliance context of a session. -/
inductive DepotType
  | Conforme
  | NonConforme
deriving DecidableEq, Repr

/-- Status codes allowed in each context: A/AM for "Conforme",
R/RM for "Non-Conforme". -/
def allowedStatuses : DepotType → List String
  | .Conforme => ["A", "AM"]
  | .NonConforme => ["R", "RM"]

/-- Statistics returned on successful validation. -/
structure ValidationStats where
  total_lines : Nat
  total_products : Nat
  total_lots : Nat
deriving DecidableEq, Repr

/-- Result of validating an uploaded extract: acceptance with statistics,
or one of the two fatal structured rejections. -/
inductive ValidationResult
  | ok (stats : ValidationStats)
  | quarantineError (lots : List String)
  | dataValidationError (offendingStatuts : List String)
deriving DecidableEq, Repr

def ValidationResult.isOk : ValidationResult → Bool
  | .ok _ => true
  | _ => false

def ValidationResult.isDataValidationError : ValidationResult → Bool
  | .dataValidationError _ => true
  | _ => false

/-- The rows of an extract carrying the quarantine status code "Q". -/
def quarantineRows (rows : List StockRow) : List StockRow :=
  rows.filter (fun r => r.statut == "Q")

/-- The rows whose status code is outside the allowed set of the chosen
context. -/
def offendingRows (rows : List StockRow) (depot : DepotType) : List StockRow :=
  rows.filter (fun r => !(allowedStatuses depot).contains r.statut)

/-- Modelled from the spec: `InventoryEngine.validate_mask` of the backend
`engine.py` is not among the available sources.  Per the spec it runs two
all-or-nothing checks over the whole row set: any row with quarantine
status "Q" makes the call fail with the `QuarantineError` kind regardless
of context, after recording one quarantine-detected audit fact per
offending lot; otherwise any row whose status is outside the context's
allowed set makes it fail with the `DataValidationError` kind naming the
offending codes; otherwise it succeeds with row/product/lot statistics.
The quarantine check takes precedence: the spec makes it a hard rejection
"regardless of context" with its own error class and audit trail. -/
def validate_mask (rows : List StockRow) (depot : DepotType) :
    ValidationResult × List AuditFact :=
  let qlots := ((quarantineRows rows).map (fun r => r.lot)).dedup
  if qlots.isEmpty then
    let bad := offendingRows rows depot
    if bad.isEmpty then
      (.ok { total_lines := rows.length
             total_products := (rows.map (fun r => r.article)).dedup.length
             total_lots := (rows.map (fun r => r.lot)).dedup.length }, [])
    else
      (.dataValidationError (bad.map (fun r => r.statut)), [])
  else
    (.quarantineError qlots,
     qlots.map (fun l => ⟨.quarantineDetected, l⟩))

/-! ## Aggregated lots and the gap distributor -/

/-- A constituent lot of an aggregated line: identifier, its theoretical
quantity, and its parsed date (`none` when unparseable). -/
structure LotEntry where
  lot : String
  qty : ℚ
  date : Option LotDate
deriving DecidableEq, Repr

/-- Chronological comparison of optional dates: dated lots compare by
their date key, and lots with no parsable date sort after all dated
lots. -/
def lotDateLe : Option LotDate → Option LotDate → Bool
  | some a, some b => a.key ≤ b.key
  | some _, none => true
  | none, some _ => false
  | none, none => true

/-- The sorting relation on lots: chronological by parsed date, undated
lots last.  Ties are broken by original aggregation order because the
sort is stable. -/
def lotRel (a b : LotEntry) : Prop := lotDateLe a.date b.date = true

instance : DecidableRel lotRel := fun a b =>
  inferInstanceAs (Decidable (lotDateLe a.date b.date = true))

instance : IsTotal LotEntry lotRel where
  total a b := by
    cases ha : a.date <;> cases hb : b.date <;>
      simp [lotRel, lotDateLe, ha, hb, Nat.le_total]

instance : IsTrans LotEntry lotRel where
  trans a b c hab hbc := by
    cases ha : a.date <;> cases hb : b.date <;> cases hc : c.date <;>
      simp_all [lotRel, lotDateLe]
    omega

/-- The chronological ordering of a line's lots used by the distributor:
stable sort by parsed date, undated lots after all dated ones in original
aggregation order. -/
def sortLots (lots : List LotEntry) : List LotEntry :=
  List.insertionSort lotRel lots

/-- The total theoretical quantity of a list of constituent lots. -/
def theoreticalOf (lots : List LotEntry) : ℚ :=
  (lots.map (fun l => l.qty)).sum

/-- One aggregated line: key (product, location), its total theoretical
quantity, and the ordered list of constituent lots.  At creation time the
total equals the sum of the lot quantities, but the distributor does not
re-derive it (the spec's fourth FIFO/LIFO scenario exercises a stored
total that disagrees with the lots). -/
structure AggregatedLine where
  article : String
  emplacement : String
  total : ℚ
  lots : List LotEntry
deriving DecidableEq, Repr

/-- Modelled from the spec: the deficit (FIFO) branch of
`InventoryEngine.distribute_gaps`.  Walks the chronologically sorted lots
oldest-first, subtracting from each lot at most its current quantity;
records a lot-exhausted audit fact when a lot is driven exactly to zero
while deficit remains; returns the per-lot deltas, the unabsorbed
remainder, and the audit facts. -/
def fifoRemove (d : ℚ) : List LotEntry → List (LotEntry × ℚ) × ℚ × List AuditFact
  | [] => ([], d, [])
  | l :: ls =>
      let t := min l.qty d
      let rest := fifoRemove (d - t) ls
      ((l, -t) :: rest.1,
       rest.2.1,
       (if t = l.qty ∧ 0 < d - t then [⟨.lotExhausted, l.lot⟩] else []) ++ rest.2.2)

/-- Modelled from the spec: the surplus (LIFO) placement of
`InventoryEngine.distribute_gaps`.  Adds the whole surplus `g` to the
last dated lot of the (chronologically sorted) list — the most recent
lot — leaving every other delta at zero; returns `none` when the list
has no dated lot. -/
def addToLastDated (g : ℚ) : List LotEntry → Option (List (LotEntry × ℚ))
  | [] => none
  | l :: ls =>
      match addToLastDated g ls with
      | some rest => some ((l, 0) :: rest)
      | none =>
          if l.date.isSome then some ((l, g) :: ls.map (fun x => (x, 0)))
          else none

/-- The outcome of distributing a gap over a line: the signed gap, the
per-lot deltas (in chronological order), the signed unresolved residual,
and the audit facts produced along the way. -/
structure GapAdjustment where
  gap : ℚ
  deltas : List (LotEntry × ℚ)
  residual : ℚ
  audits : List AuditFact
deriving DecidableEq, Repr

/-- Modelled from the spec: `InventoryEngine.distribute_gaps` of the
backend `engine.py` is not among the available sources.  Per the spec it
computes the gap `counted − theoretical` of an aggregated line and sorts
the lots chronologically (undated last).  A surplus is added entirely to
the most recent lot (the first undated lot when no lot is dated); a
deficit is taken from the lots oldest-first, never driving a lot below
zero, with the unabsorbed remainder reported as a residual together with
a residual-unresolved audit fact; a zero gap produces all-zero deltas and
no audit entries. -/
def distribute_gaps (line : AggregatedLine) (counted : ℚ) : GapAdjustment :=
  let gap := counted - line.total
  let sorted := sortLots line.lots
  if 0 < gap then
    match addToLastDated gap sorted with
    | some deltas => ⟨gap, deltas, 0, []⟩
    | none =>
        match sorted with
        | [] => ⟨gap, [], gap, [⟨.residualUnresolved, "no lots"⟩]⟩
        | l :: ls => ⟨gap, (l, gap) :: ls.map (fun x => (x, 0)), 0, []⟩
  else if gap < 0 then
    let r := fifoRemove (-gap) sorted
    ⟨gap, r.1, -r.2.1,
     r.2.2 ++ (if 0 < r.2.1 then [⟨.residualUnresolved, "residual"⟩] else [])⟩
  else ⟨gap, sorted.map (fun x => (x, 0)), 0, []⟩

/-! ## Frontend: `StepEdit` quantity entry (`StepEdit.tsx`) -/

/-- The result of JavaScript's `Number(...)` conversion: either `NaN` or
a numeric value. -/
inductive JsNum
  | nan
  | val (q : ℚ)
deriving DecidableEq, Repr

/-- The `quantite_reelle` field of a table row in `StepEdit`: a blank
entry (the empty string left by clearing the input, or `null`), or a
non-blank entry together with its `Number(...)` conversion. -/
inductive QuantiteReelle
  | blank
  | entry (n : JsNum)
deriving DecidableEq, Repr

/-- A row of the `StepEdit` table (`InventoryLine` in `StepEdit.tsx`). -/
structure InventoryLine where
  article : String
  emplacement : String
  quantite_theorique : ℚ
  quantite_reelle : QuantiteReelle
deriving DecidableEq, Repr

/-- Errors contributed by one row in `StepEdit`'s `validate`: blank
entries are skipped (treated as 0); a non-blank entry counts one error
when its `Number` conversion is `NaN` and one when it is negative. -/
def rowErrors : QuantiteReelle → Nat
  | .blank => 0
  | .entry .nan => 1
  | .entry (.val q) => if q < 0 then 1 else 0

/-- `StepEdit`'s `validate`: the total error count over the table. -/
def validate (data : List InventoryLine) : Nat :=
  (data.map (fun r => rowErrors r.quantite_reelle)).sum

/-- The payload value for one row in `handleSubmit`'s `cleanData` map:
an empty or `null` entry becomes 0, anything else its `Number`
conversion. -/
def cleanValue : QuantiteReelle → JsNum
  | .blank => .val 0
  | .entry n => n

/-- `handleSubmit`'s `cleanData`: the posted `quantite_reelle` values, in
row order. -/
def cleanData (data : List InventoryLine) : List JsNum :=
  data.map (fun r => cleanValue r.quantite_reelle)

/-- `StepEdit`'s `handleSubmit`: returns the payload of the issued
process-data request, or `none` when the request is not sent because the
error count is positive. -/
def handleSubmit (data : List InventoryLine) : Option (List JsNum) :=
  if 0 < validate data then none else some (cleanData data)

/-! ## Frontend: file-extension gates (`StepSummary.tsx`, `StepUpload.tsx`) -/

/-- JavaScript's `toLowerCase` on an ASCII character. -/
def lowerChar (c : Char) : Char :=
  if 'A' ≤ c ∧ c ≤ 'Z' then Char.ofNat (c.toNat + 32) else c

/-- `name.toLowerCase()` on the characters of a file name. -/
def lowerName (s : String) : List Char := s.data.map lowerChar

/-- JavaScript's `String.prototype.endsWith`. -/
def endsWithSuffix (s suffix : List Char) : Bool :=
  suffix.length ≤ s.length && (s.drop (s.length - suffix.length) == suffix)

/-- Outcome of `StepSummary.uploadTemplate` as far as the network is
concerned: whether a request is issued and which error is shown. -/
structure UploadOutcome where
  requestSent : Bool
  errorMessage : Option String
deriving DecidableEq, Repr

/-- `StepSummary.tsx`'s `uploadTemplate`: rejects any file whose
lowercased name does not end in `.xlsx` before issuing the network
request. -/
def uploadTemplate (fileName : String) : UploadOutcome :=
  if !endsWithSuffix (lowerName fileName) ".xlsx".data then
    ⟨false, some "Seuls les fichiers Excel (.xlsx) sont acceptés"⟩
  else
    ⟨true, none⟩

/-- `StepUpload.tsx`'s `validateAndSetFile`: keeps the selected file only
when its lowercased name ends in `.csv`; otherwise clears the selection
and sets an error.  Returns (selected file, error message). -/
def validateAndSetFile (fileName : String) : Option String × Option String :=
  if !endsWithSuffix (lowerName fileName) ".csv".data then
    (none, some "Seuls les fichiers CSV sont acceptés.")
  else
    (some fileName, none)

/-! ## Arithmetic helpers -/

theorem sub_min_eq_max (q d : ℚ) : d - min q d = max 0 (d - q) := by
  rcases le_total q d with h | h
  · rw [min_eq_left h, max_eq_right (by linarith)]
  · rw [min_eq_right h, max_eq_left (by linarith)]
    linarith

theorem max_zero_sub_absorb (x p : ℚ) (hp : 0 ≤ p) :
    max 0 (max 0 x - p) = max 0 (x - p) := by
  rcases le_total 0 x with h | h
  · rw [max_eq_right h]
  · rw [max_eq_left h, max_eq_left (by linarith), max_eq_left (by linarith)]

theorem max_sub_min_absorb (q d p : ℚ) (hp : 0 ≤ p) :
    max 0 (d - (q + p)) = max 0 (d - min q d - p) := by
  rw [sub_min_eq_max, max_zero_sub_absorb _ _ hp]
  congr 1
  ring

/-! ## Lemmas about the chronological sort -/

theorem sortLots_perm (lots : List LotEntry) : List.Perm (sortLots lots) lots :=
  List.perm_insertionSort lotRel lots

theorem sortLots_sorted (lots : List LotEntry) : List.Sorted lotRel (sortLots lots) :=
  List.sorted_insertionSort lotRel lots

theorem mem_sortLots {lots : List LotEntry} {x : LotEntry} :
    x ∈ sortLots lots ↔ x ∈ lots :=
  (sortLots_perm lots).mem_iff

theorem theoreticalOf_sortLots (lots : List LotEntry) :
    theoreticalOf (sortLots lots) = theoreticalOf lots := by
  simpa [theoreticalOf] using ((sortLots_perm lots).map (fun l => l.qty)).sum_eq

theorem theoreticalOf_nonneg (lots : List LotEntry)
    (hq : ∀ l ∈ lots, 0 ≤ l.qty) : 0 ≤ theoreticalOf lots := by
  refine List.sum_nonneg ?_
  intro x hx
  obtain ⟨l, hl, rfl⟩ := List.mem_map.mp hx
  exact hq l hl

theorem sortLots_of_all_undated (lots : List LotEntry)
    (h : ∀ x ∈ lots, x.date = none) : sortLots lots = lots := by
  induction lots with
  | nil => rfl
  | cons l ls ih =>
      have htail : List.insertionSort lotRel ls = ls := by
        simpa [sortLots] using ih (fun x hx => h x (List.mem_cons_of_mem _ hx))
      rw [sortLots, List.insertionSort, htail]
      cases ls with
      | nil => rfl
      | cons b bs =>
          have hb : lotRel l b := by
            simp [lotRel, h l (by simp), h b (by simp)]
            simp [lotDateLe]
          simp [List.orderedInsert, if_pos hb]

/-! ## Lemmas about the FIFO deficit fold -/

theorem fifoRemove_map_fst (d : ℚ) (ls : List LotEntry) :
    (fifoRemove d ls).1.map Prod.fst = ls := by
  induction ls generalizing d with
  | nil => simp [fifoRemove]
  | cons l ls ih => simp [fifoRemove, ih]

theorem fifoRemove_length (d : ℚ) (ls : List LotEntry) :
    (fifoRemove d ls).1.length = ls.length := by
  have := congrArg List.length (fifoRemove_map_fst d ls)
  simpa using this

theorem fifoRemove_sum (d : ℚ) (ls : List LotEntry) :
    ((fifoRemove d ls).1.map Prod.snd).sum = (fifoRemove d ls).2.1 - d := by
  induction ls generalizing d with
  | nil => simp [fifoRemove]
  | cons l ls ih =>
      simp only [fifoRemove, List.map_cons, List.sum_cons, ih (d - min l.qty d)]
      ring

theorem fifoRemove_rem_nonneg (d : ℚ) (ls : List LotEntry) (hd : 0 ≤ d) :
    0 ≤ (fifoRemove d ls).2.1 := by
  induction ls generalizing d with
  | nil => simpa [fifoRemove] using hd
  | cons l ls ih =>
      have hstep : 0 ≤ d - min l.qty d := by
        have := min_le_right l.qty d
        linarith
      simpa [fifoRemove] using ih _ hstep

theorem fifoRemove_post_nonneg (d : ℚ) (ls : List LotEntry) :
    ∀ p ∈ (fifoRemove d ls).1, 0 ≤ p.1.qty + p.2 := by
  induction ls generalizing d with
  | nil => simp [fifoRemove]
  | cons l ls ih =>
      intro p hp
      rw [fifoRemove, List.mem_cons] at hp
      rcases hp with rfl | hp
      · have := min_le_left l.qty d
        simp only []
        linarith
      · exact ih _ p hp

theorem fifoRemove_snd_bounds (d : ℚ) (ls : List LotEntry) (hd : 0 ≤ d)
    (hq : ∀ l ∈ ls, 0 ≤ l.qty) :
    ∀ p ∈ (fifoRemove d ls).1, -p.1.qty ≤ p.2 ∧ p.2 ≤ 0 := by
  induction ls generalizing d with
  | nil => simp [fifoRemove]
  | cons l ls ih =>
      intro p hp
      rw [fifoRemove, List.mem_cons] at hp
      rcases hp with rfl | hp
      · constructor
        · have := min_le_left l.qty d
          simp only []
          linarith
        · have h1 : 0 ≤ l.qty := hq l (by simp)
          have h2 : 0 ≤ min l.qty d := le_min h1 hd
          simp only []
          linarith
      · have hd2 : 0 ≤ d - min l.qty d := by
          have := min_le_right l.qty d
          linarith
        exact ih _ hd2 (fun x hx => hq x (List.mem_cons_of_mem _ hx)) p hp

theorem fifoRemove_rem_eq (d : ℚ) (ls : List LotEntry) (hd : 0 ≤ d)
    (hq : ∀ l ∈ ls, 0 ≤ l.qty) :
    (fifoRemove d ls).2.1 = max 0 (d - theoreticalOf ls) := by
  induction ls generalizing d with
  | nil =>
      simp [fifoRemove, theoreticalOf, max_eq_right hd]
  | cons l ls ih =>
      have hd2 : 0 ≤ d - min l.qty d := by
        have := min_le_right l.qty d
        linarith
      have hq2 : ∀ x ∈ ls, 0 ≤ x.qty := fun x hx => hq x (List.mem_cons_of_mem _ hx)
      have hsum : 0 ≤ theoreticalOf ls := theoreticalOf_nonneg ls hq2
      rw [fifoRemove]
      simp only []
      rw [ih _ hd2 hq2, sub_min_eq_max, max_zero_sub_absorb _ _ hsum]
      have hth : theoreticalOf (l :: ls) = l.qty + theoreticalOf ls := by
        simp [theoreticalOf]
      rw [hth]
      ring_nf

theorem fifoRemove_take_qty_nonneg (d : ℚ) (ls : List LotEntry)
    (hq : ∀ l ∈ ls, 0 ≤ l.qty) (i : Nat) :
    0 ≤ ((((fifoRemove d ls).1.take i).map (fun p => p.1.qty)).sum) := by
  refine List.sum_nonneg ?_
  intro x hx
  obtain ⟨p, hp, rfl⟩ := List.mem_map.mp hx
  have hmem : p ∈ (fifoRemove d ls).1 := List.take_subset i _ hp
  have : p.1 ∈ (fifoRemove d ls).1.map Prod.fst := List.mem_map_of_mem _ hmem
  rw [fifoRemove_map_fst] at this
  exact hq _ this

theorem fifoRemove_get : ∀ (ls : List LotEntry) (d : ℚ), 0 ≤ d →
    (∀ l ∈ ls, 0 ≤ l.qty) → ∀ (i : Nat) (h : i < (fifoRemove d ls).1.length),
    ((fifoRemove d ls).1.get ⟨i, h⟩).2
      = -min ((fifoRemove d ls).1.get ⟨i, h⟩).1.qty
          (max 0 (d - (((fifoRemove d ls).1.take i).map (fun p => p.1.qty)).sum)) := by
  intro ls
  induction ls with
  | nil =>
      intro d hd hq i h
      simp [fifoRemove] at h
  | cons l ls ih =>
      intro d hd hq i h
      have hd2 : 0 ≤ d - min l.qty d := by
        have := min_le_right l.qty d
        linarith
      have hq2 : ∀ x ∈ ls, 0 ≤ x.qty := fun x hx => hq x (List.mem_cons_of_mem _ hx)
      cases i with
      | zero =>
          simp [fifoRemove, max_eq_right hd]
      | succ i =>
          have h2 : i < (fifoRemove (d - min l.qty d) ls).1.length := by
            rw [fifoRemove_length] at h ⊢
            simpa using Nat.lt_of_succ_lt_succ h
          have hP := fifoRemove_take_qty_nonneg (d - min l.qty d) ls hq2 i
          simp only [fifoRemove, List.get_cons_succ, List.take_succ_cons,
            List.map_cons, List.sum_cons]
          rw [max_sub_min_absorb _ _ _ hP]
          exact ih (d - min l.qty d) hd2 hq2 i h2

theorem fifoRemove_exhaust_mem : ∀ (ls : List LotEntry) (d : ℚ), 0 ≤ d →
    (∀ l ∈ ls, 0 ≤ l.qty) → ∀ (i : Nat) (h : i < ls.length),
    (ls.get ⟨i, h⟩).qty < max 0 (d - ((ls.take i).map (fun l => l.qty)).sum) →
    (⟨.lotExhausted, (ls.get ⟨i, h⟩).lot⟩ : AuditFact) ∈ (fifoRemove d ls).2.2 := by
  intro ls
  induction ls with
  | nil =>
      intro d hd hq i h
      simp at h
  | cons l ls ih =>
      intro d hd hq i h hlt
      have hd2 : 0 ≤ d - min l.qty d := by
        have := min_le_right l.qty d
        linarith
      have hq2 : ∀ x ∈ ls, 0 ≤ x.qty := fun x hx => hq x (List.mem_cons_of_mem _ hx)
      cases i with
      | zero =>
          simp only [List.take_zero, List.map_nil,
            List.sum_nil, sub_zero, max_eq_right hd] at hlt
          have hlt2 : l.qty < d := by simpa using hlt
          have ht : min l.qty d = l.qty := min_eq_left (le_of_lt hlt2)
          have hcond : min l.qty d = l.qty ∧ 0 < d - min l.qty d := by
            exact ⟨ht, by rw [ht]; linarith⟩
          simp only [fifoRemove, List.mem_append]
          left
          simp [hcond]
          exact hlt2
      | succ i =>
          have h2 : i < ls.length := Nat.lt_of_succ_lt_succ h
          have hP : 0 ≤ ((ls.take i).map (fun l => l.qty)).sum := by
            refine List.sum_nonneg ?_
            intro x hx
            obtain ⟨y, hy, rfl⟩ := List.mem_map.mp hx
            exact hq2 y (List.take_subset i ls hy)
          simp only [List.get_cons_succ, List.take_succ_cons, List.map_cons,
            List.sum_cons] at hlt ⊢
          rw [max_sub_min_absorb _ _ _ hP] at hlt
          have hmem := ih (d - min l.qty d) hd2 hq2 i h2 hlt
          simp only [fifoRemove, List.mem_append]
          right
          exact hmem

/-! ## Lemmas about the LIFO surplus placement -/

theorem addToLastDated_eq_none (g : ℚ) : ∀ (ls : List LotEntry),
    addToLastDated g ls = none ↔ ∀ x ∈ ls, x.date = none := by
  intro ls
  induction ls with
  | nil => simp [addToLastDated]
  | cons l ls ih =>
      rw [addToLastDated]
      cases hr : addToLastDated g ls with
      | some rest =>
          simp only []
          constructor
          · intro h
            cases h
          · intro h
            have : addToLastDated g ls = none :=
              (ih).mpr (fun x hx => h x (List.mem_cons_of_mem _ hx))
            rw [hr] at this
            cases this
      | none =>
          by_cases hl : l.date.isSome
          · simp only [hl, if_true]
            constructor
            · intro h
              cases h
            · intro h
              have := h l (by simp)
              rw [this] at hl
              cases hl
          · simp only [hl, if_false]
            have hnone : l.date = none := Option.not_isSome_iff_eq_none.mp (by simpa using hl)
            constructor
            · intro _ x hx
              rcases List.mem_cons.mp hx with rfl | hx
              · exact hnone
              · exact (ih).mp hr x hx
            · intro _
              rfl

theorem addToLastDated_eq_some (g : ℚ) : ∀ (ls : List LotEntry)
    (res : List (LotEntry × ℚ)), addToLastDated g ls = some res →
    ∃ l₁ t l₂, ls = l₁ ++ t :: l₂
      ∧ res = l₁.map (fun x => (x, (0 : ℚ))) ++ (t, g) :: l₂.map (fun x => (x, (0 : ℚ)))
      ∧ t.date ≠ none ∧ ∀ x ∈ l₂, x.date = none := by
  intro ls
  induction ls with
  | nil =>
      intro res h
      simp [addToLastDated] at h
  | cons l ls ih =>
      intro res h
      rw [addToLastDated] at h
      cases hr : addToLastDated g ls with
      | some rest =>
          rw [hr] at h
          simp only [Option.some.injEq] at h
          obtain ⟨l₁, t, l₂, h1, h2, h3, h4⟩ := ih rest hr
          refine ⟨l :: l₁, t, l₂, ?_, ?_, h3, h4⟩
          · rw [h1]
            rfl
          · rw [← h, h2]
            rfl
      | none =>
          rw [hr] at h
          by_cases hl : l.date.isSome
          · rw [if_pos hl] at h
            simp only [Option.some.injEq] at h
            refine ⟨[], l, ls, rfl, ?_, ?_, ?_⟩
            · rw [← h]
              rfl
            · intro hcontra
              rw [hcontra] at hl
              cases hl
            · exact (addToLastDated_eq_none g ls).mp hr
          · rw [if_neg hl] at h
            cases h

theorem map_pair_zero_snd_sum (ls : List LotEntry) :
    ((ls.map (fun x => (x, (0 : ℚ)))).map Prod.snd).sum = 0 := by
  induction ls with
  | nil => simp
  | cons l ls ih => simpa using ih

/-! ## Case characterizations of the distributor -/

theorem distribute_gaps_deficit (line : AggregatedLine) (counted : ℚ)
    (h : counted < line.total) :
    distribute_gaps line counted
      = ⟨counted - line.total,
         (fifoRemove (line.total - counted) (sortLots line.lots)).1,
         -(fifoRemove (line.total - counted) (sortLots line.lots)).2.1,
         (fifoRemove (line.total - counted) (sortLots line.lots)).2.2
           ++ (if 0 < (fifoRemove (line.total - counted) (sortLots line.lots)).2.1
               then [⟨.residualUnresolved, "residual"⟩] else [])⟩ := by
  have h1 : ¬ 0 < counted - line.total := by linarith
  have h2 : counted - line.total < 0 := by linarith
  simp only [distribute_gaps, if_neg h1, if_pos h2, neg_sub]

theorem distribute_gaps_zero_gap (line : AggregatedLine) (counted : ℚ)
    (h : counted = line.total) :
    distribute_gaps line counted
      = ⟨0, (sortLots line.lots).map (fun x => (x, 0)), 0, []⟩ := by
  have h0 : counted - line.total = 0 := by rw [h]; ring
  simp [distribute_gaps, h0]

theorem distribute_gaps_surplus_some (line : AggregatedLine) (counted : ℚ)
    (h : line.total < counted) (res : List (LotEntry × ℚ))
    (hres : addToLastDated (counted - line.total) (sortLots line.lots) = some res) :
    distribute_gaps line counted = ⟨counted - line.total, res, 0, []⟩ := by
  have h1 : 0 < counted - line.total := by linarith
  simp only [distribute_gaps, if_pos h1, hres]

theorem distribute_gaps_surplus_empty (line : AggregatedLine) (counted : ℚ)
    (h : line.total < counted)
    (hs : sortLots line.lots = []) :
    distribute_gaps line counted
      = ⟨counted - line.total, [], counted - line.total,
         [⟨.residualUnresolved, "no lots"⟩]⟩ := by
  have h1 : 0 < counted - line.total := by linarith
  simp only [distribute_gaps, if_pos h1, hs]
  rfl

theorem distribute_gaps_surplus_undated (line : AggregatedLine) (counted : ℚ)
    (h : line.total < counted)
    (hnone : addToLastDated (counted - line.total) (sortLots line.lots) = none)
    (l : LotEntry) (ls : List LotEntry) (hs : sortLots line.lots = l :: ls) :
    distribute_gaps line counted
      = ⟨counted - line.total,
         (l, counted - line.total) :: ls.map (fun x => (x, 0)), 0, []⟩ := by
  have h1 : 0 < counted - line.total := by linarith
  rw [hs] at hnone
  simp only [distribute_gaps, if_pos h1, hs, hnone]

theorem sorted_split_rel {l₁ l₂ : List LotEntry} {t x : LotEntry}
    (hs : List.Sorted lotRel (l₁ ++ t :: l₂)) (hx : x ∈ l₁) : lotRel x t := by
  rw [List.Sorted, List.pairwise_append] at hs
  exact hs.2.2 x hx t (by simp)

/-! ## Claim theorems -/

/-- C1: for every AggregatedLine with its constituent lots and every
counted quantity, the per-lot delta list produced by `distribute_gaps`
sums exactly to the resolvable portion of the gap counted − theoretical,
i.e. the gap minus the reported residual, in every case; and a nonzero
residual is always explicitly reported as a residual-unresolved audit
fact. -/
theorem c1_gap_conservation (line : AggregatedLine) (counted : ℚ) :
    ((distribute_gaps line counted).deltas.map Prod.snd).sum
        = (distribute_gaps line counted).gap - (distribute_gaps line counted).residual
    ∧ ((distribute_gaps line counted).residual ≠ 0 →
        ∃ f ∈ (distribute_gaps line counted).audits,
          f.kind = AuditKind.residualUnresolved) := by
  rcases lt_trichotomy counted line.total with h | h | h
  · rw [distribute_gaps_deficit line counted h]
    have hd : (0 : ℚ) ≤ line.total - counted := by linarith
    have hnn := fifoRemove_rem_nonneg (line.total - counted) (sortLots line.lots) hd
    constructor
    · simp only []
      rw [fifoRemove_sum]
      ring
    · intro hres
      simp only [] at hres ⊢
      have hne : (fifoRemove (line.total - counted) (sortLots line.lots)).2.1 ≠ 0 := by
        intro e
        apply hres
        rw [e]
        ring
      have hpos : 0 < (fifoRemove (line.total - counted) (sortLots line.lots)).2.1 :=
        lt_of_le_of_ne hnn (Ne.symm hne)
      refine ⟨⟨.residualUnresolved, "residual"⟩, ?_, rfl⟩
      rw [if_pos hpos]
      simp
  · rw [distribute_gaps_zero_gap line counted h]
    constructor
    · simp only []
      rw [map_pair_zero_snd_sum]
      ring
    · intro hres
      simp at hres
  · cases hres : addToLastDated (counted - line.total) (sortLots line.lots) with
    | some res =>
        rw [distribute_gaps_surplus_some line counted h res hres]
        obtain ⟨l₁, t, l₂, _, hdec, _, _⟩ := addToLastDated_eq_some _ _ res hres
        constructor
        · simp only []
          rw [hdec]
          simp only [List.map_append, List.map_cons, List.sum_append, List.sum_cons]
          rw [map_pair_zero_snd_sum, map_pair_zero_snd_sum]
          ring
        · intro hcontra
          simp at hcontra
    | none =>
        cases hs : sortLots line.lots with
        | nil =>
            rw [distribute_gaps_surplus_empty line counted h hs]
            constructor
            · simp
            · intro _
              exact ⟨⟨.residualUnresolved, "no lots"⟩, by simp, rfl⟩
        | cons l ls =>
            rw [distribute_gaps_surplus_undated line counted h hres l ls hs]
            constructor
            · simp only [List.map_cons, List.sum_cons]
              rw [map_pair_zero_snd_sum]
              ring
            · intro hcontra
              simp at hcontra

/-- C2: for every AggregatedLine whose lots have non-negative
quantities and every counted quantity, applying the deltas produced by
`distribute_gaps` leaves every lot's post-adjustment quantity ≥ 0. -/
theorem c2_post_nonnegativity (line : AggregatedLine) (counted : ℚ)
    (hq : ∀ l ∈ line.lots, 0 ≤ l.qty) :
    ∀ p ∈ (distribute_gaps line counted).deltas, 0 ≤ p.1.qty + p.2 := by
  have hqs : ∀ l ∈ sortLots line.lots, 0 ≤ l.qty := fun l hl =>
    hq l (mem_sortLots.mp hl)
  rcases lt_trichotomy counted line.total with h | h | h
  · rw [distribute_gaps_deficit line counted h]
    intro p hp
    exact fifoRemove_post_nonneg _ _ p hp
  · rw [distribute_gaps_zero_gap line counted h]
    intro p hp
    simp only [] at hp
    obtain ⟨x, hx, rfl⟩ := List.mem_map.mp hp
    simpa using hqs x hx
  · have hgap : 0 < counted - line.total := by linarith
    cases hres : addToLastDated (counted - line.total) (sortLots line.lots) with
    | some res =>
        rw [distribute_gaps_surplus_some line counted h res hres]
        obtain ⟨l₁, t, l₂, hsort, hdec, _, _⟩ := addToLastDated_eq_some _ _ res hres
        intro p hp
        simp only [] at hp
        rw [hdec] at hp
        rcases List.mem_append.mp hp with hp | hp
        · obtain ⟨x, hx, rfl⟩ := List.mem_map.mp hp
          have hx2 : x ∈ sortLots line.lots := by
            rw [hsort]
            exact List.mem_append_left _ hx
          simpa using hqs x hx2
        · rcases List.mem_cons.mp hp with rfl | hp
          · have ht : t ∈ sortLots line.lots := by
              rw [hsort]
              simp
            have := hqs t ht
            simp only []
            linarith
          · obtain ⟨x, hx, rfl⟩ := List.mem_map.mp hp
            have hx2 : x ∈ sortLots line.lots := by
              rw [hsort]
              refine List.mem_append_right _ ?_
              exact List.mem_cons_of_mem _ hx
            simpa using hqs x hx2
    | none =>
        cases hs : sortLots line.lots with
        | nil =>
            rw [distribute_gaps_surplus_empty line counted h hs]
            intro p hp
            simp at hp
        | cons l ls =>
            rw [distribute_gaps_surplus_undated line counted h hres l ls hs]
            intro p hp
            rcases List.mem_cons.mp hp with rfl | hp
            · have hl : l ∈ sortLots line.lots := by
                rw [hs]
                simp
              have := hqs l hl
              simp only []
              linarith
            · obtain ⟨x, hx, rfl⟩ := List.mem_map.mp hp
              have hx2 : x ∈ sortLots line.lots := by
                rw [hs]
                exact List.mem_cons_of_mem _ hx
              simpa using hqs x hx2

/-- Witness for C2 at the spec's example line (lots L1 and L2, counted
8): the delta −7 applied to lot L1 (quantity 10) leaves it at 3 ≥ 0. -/
theorem c2_post_nonnegativity_witness :
    0 ≤ (⟨"L1", 10, some ⟨2024, 1, 1⟩⟩ : LotEntry).qty + (-7 : ℚ) :=
  c2_post_nonnegativity
    ⟨"P1", "E1", 15, [⟨"L1", 10, some ⟨2024, 1, 1⟩⟩, ⟨"L2", 5, some ⟨2024, 3, 1⟩⟩]⟩ 8
    (by
      intro l hl
      rcases List.mem_cons.mp hl with rfl | hl
      · norm_num
      · rcases List.mem_cons.mp hl with rfl | hl
        · norm_num
        · simp at hl)
    (⟨"L1", 10, some ⟨2024, 1, 1⟩⟩, -7)
    (by
      have hdel : (distribute_gaps
          ⟨"P1", "E1", 15,
            [⟨"L1", 10, some ⟨2024, 1, 1⟩⟩, ⟨"L2", 5, some ⟨2024, 3, 1⟩⟩]⟩ 8).deltas
          = [(⟨"L1", 10, some ⟨2024, 1, 1⟩⟩, -7), (⟨"L2", 5, some ⟨2024, 3, 1⟩⟩, 0)] := by
        norm_num [distribute_gaps, theoreticalOf, sortLots, lotRel, lotDateLe,
          LotDate.key, fifoRemove, min_def]
      rw [hdel]
      simp)

/-- C3: for every AggregatedLine with a negative gap and non-negative lot
quantities, `distribute_gaps` walks the lots oldest-first (the deltas
follow the chronological sort): each lot's delta subtracts the minimum of
its quantity and the deficit left over by all older lots; a lot exhausted
while deficit remains yields a lot-exhausted audit fact; the unabsorbed
residual is exactly the deficit beyond the total and, when nonzero, is
reported as a residual-unresolved audit fact rather than dropped.  For
the spec's example (L1 2024-01-01 qty 10, L2 2024-03-01 qty 5, counted
8), L1 is reduced by 7 to 3 and L2 is unchanged. -/
theorem c3_deficit_fifo :
    (∀ (line : AggregatedLine) (counted : ℚ),
      counted < line.total →
      (∀ l ∈ line.lots, 0 ≤ l.qty) →
      ((distribute_gaps line counted).deltas.map Prod.fst = sortLots line.lots
        ∧ (∀ (i : Nat) (h : i < (distribute_gaps line counted).deltas.length),
            ((distribute_gaps line counted).deltas.get ⟨i, h⟩).2
              = -min ((distribute_gaps line counted).deltas.get ⟨i, h⟩).1.qty
                  (max 0 (line.total - counted
                    - (((distribute_gaps line counted).deltas.take i).map
                        (fun p => p.1.qty)).sum)))
        ∧ (∀ (i : Nat) (h : i < (sortLots line.lots).length),
            ((sortLots line.lots).get ⟨i, h⟩).qty
                < max 0 (line.total - counted
                    - (((sortLots line.lots).take i).map (fun l => l.qty)).sum) →
            (⟨.lotExhausted, ((sortLots line.lots).get ⟨i, h⟩).lot⟩ : AuditFact)
              ∈ (distribute_gaps line counted).audits)
        ∧ (distribute_gaps line counted).residual
            = -(max 0 (line.total - counted - theoreticalOf line.lots))
        ∧ ((distribute_gaps line counted).residual ≠ 0 →
            (⟨.residualUnresolved, "residual"⟩ : AuditFact)
              ∈ (distribute_gaps line counted).audits)))
    ∧ (distribute_gaps
        ⟨"P1", "E1", 15,
          [⟨"L1", 10, some ⟨2024, 1, 1⟩⟩, ⟨"L2", 5, some ⟨2024, 3, 1⟩⟩]⟩ 8).deltas
      = [(⟨"L1", 10, some ⟨2024, 1, 1⟩⟩, -7), (⟨"L2", 5, some ⟨2024, 3, 1⟩⟩, 0)] := by
  constructor
  · intro line counted h hq
    have hd : (0 : ℚ) ≤ line.total - counted := by linarith
    have hqs : ∀ l ∈ sortLots line.lots, 0 ≤ l.qty := fun l hl =>
      hq l (mem_sortLots.mp hl)
    have hnn := fifoRemove_rem_nonneg (line.total - counted) (sortLots line.lots) hd
    rw [distribute_gaps_deficit line counted h]
    refine ⟨?_, ?_, ?_, ?_, ?_⟩
    · exact fifoRemove_map_fst _ _
    · intro i hi
      exact fifoRemove_get (sortLots line.lots) (line.total - counted) hd hqs i hi
    · intro i hi hlt
      have hmem := fifoRemove_exhaust_mem (sortLots line.lots) (line.total - counted)
        hd hqs i hi hlt
      simp only [List.mem_append]
      left
      exact hmem
    · simp only []
      rw [fifoRemove_rem_eq _ _ hd hqs, theoreticalOf_sortLots]
    · intro hres
      simp only [] at hres ⊢
      have hne : (fifoRemove (line.total - counted) (sortLots line.lots)).2.1 ≠ 0 := by
        intro e
        apply hres
        rw [e]
        ring
      have hpos : 0 < (fifoRemove (line.total - counted) (sortLots line.lots)).2.1 :=
        lt_of_le_of_ne hnn (Ne.symm hne)
      rw [if_pos hpos]
      simp
  · norm_num [distribute_gaps, theoreticalOf, sortLots, lotRel, lotDateLe,
      LotDate.key, fifoRemove, min_def]

/-- C4: for every AggregatedLine with a positive gap, `distribute_gaps`
adds the entire surplus to a single lot and leaves every other delta at
zero; when the line has any dated lot the receiver is dated and its
parsed date is maximal among all dated lots; when the line has only
undated lots the first (earliest-seen) lot receives the whole surplus.
For the spec's example (L1 qty 10, L2 qty 5, counted 20) L2 becomes 10
and L1 stays 10. -/
theorem c4_surplus_lifo :
    (∀ (line : AggregatedLine) (counted : ℚ),
      line.total < counted →
      line.lots ≠ [] →
      ∃ l₁ t l₂,
        sortLots line.lots = l₁ ++ t :: l₂
        ∧ (distribute_gaps line counted).deltas
            = l₁.map (fun x => (x, (0 : ℚ)))
              ++ (t, counted - line.total) :: l₂.map (fun x => (x, (0 : ℚ)))
        ∧ ((∃ x ∈ line.lots, x.date ≠ none) →
            t.date ≠ none
            ∧ ∀ x ∈ line.lots, ∀ dx, x.date = some dx →
                ∀ dt, t.date = some dt → dx.key ≤ dt.key)
        ∧ ((∀ x ∈ line.lots, x.date = none) → l₁ = [] ∧ line.lots = t :: l₂))
    ∧ (distribute_gaps
        ⟨"P1", "E1", 15,
          [⟨"L1", 10, some ⟨2024, 1, 1⟩⟩, ⟨"L2", 5, some ⟨2024, 3, 1⟩⟩]⟩ 20).deltas
      = [(⟨"L1", 10, some ⟨2024, 1, 1⟩⟩, 0), (⟨"L2", 5, some ⟨2024, 3, 1⟩⟩, 5)] := by
  constructor
  · intro line counted h hne
    cases hres : addToLastDated (counted - line.total) (sortLots line.lots) with
    | some res =>
        obtain ⟨l₁, t, l₂, hsort, hdec, ht, hl₂⟩ := addToLastDated_eq_some _ _ res hres
        rw [distribute_gaps_surplus_some line counted h res hres]
        refine ⟨l₁, t, l₂, hsort, by simpa using hdec, ?_, ?_⟩
        · intro _
          refine ⟨ht, ?_⟩
          intro x hx dx hdx dt hdt
          have hxs : x ∈ sortLots line.lots := mem_sortLots.mpr hx
          rw [hsort] at hxs
          rcases List.mem_append.mp hxs with hx1 | hx2
          · have hrel : lotRel x t := by
              have hsorted := sortLots_sorted line.lots
              rw [hsort] at hsorted
              exact sorted_split_rel hsorted hx1
            rw [lotRel, hdx, hdt] at hrel
            simpa [lotDateLe] using hrel
          · rcases List.mem_cons.mp hx2 with rfl | hx3
            · rw [hdx] at hdt
              cases hdt
              exact le_refl _
            · have := hl₂ x hx3
              rw [this] at hdx
              cases hdx
        · intro hall
          have hts : t ∈ sortLots line.lots := by
            rw [hsort]
            simp
          exact absurd (hall t (mem_sortLots.mp hts)) ht
    | none =>
        have hall : ∀ x ∈ line.lots, x.date = none := by
          intro x hx
          exact (addToLastDated_eq_none _ _).mp hres x (mem_sortLots.mpr hx)
        have hsl : sortLots line.lots = line.lots := sortLots_of_all_undated _ hall
        cases hs : sortLots line.lots with
        | nil =>
            have hperm := sortLots_perm line.lots
            rw [hs] at hperm
            have : line.lots = [] := by
              have hlen := hperm.length_eq
              exact List.eq_nil_of_length_eq_zero hlen.symm
            exact absurd this hne
        | cons l ls =>
            rw [distribute_gaps_surplus_undated line counted h hres l ls hs]
            refine ⟨[], l, ls, rfl, by simp, ?_, ?_⟩
            · intro hex
              obtain ⟨x, hx, hdx⟩ := hex
              exact absurd (hall x hx) hdx
            · intro _
              refine ⟨rfl, ?_⟩
              rw [← hsl]
              exact hs
  · norm_num [distribute_gaps, theoreticalOf, sortLots, lotRel, lotDateLe,
      LotDate.key, addToLastDated]

/-- C5 counterexample: a single row with quarantine status "Q" under the
"Conforme" context has its status outside the allowed set {A, AM}, so
the claim demands a DataValidationError-class rejection; the validator
instead rejects it with the QuarantineError class (the quarantine check
takes precedence, per the spec's own quarantine rule). -/
theorem c5_counterexample :
    "Q" ∉ allowedStatuses DepotType.Conforme
    ∧ (validate_mask [⟨"P1", "E1", "Q", "L1", 1, "UN"⟩]
        DepotType.Conforme).1.isDataValidationError = false
    ∧ (validate_mask [⟨"P1", "E1", "Q", "L1", 1, "UN"⟩] DepotType.Conforme).1
        = .quarantineError ["L1"] := by
  refine ⟨by decide, by decide, by decide⟩

/-- C5 (amended): the validator accepts exactly when every row's status
lies in the context's allowed set (A/AM for Conforme, R/RM for
Non-Conforme) — never partially; and when some row's status is outside
that set and no row carries the quarantine status "Q", the whole extract
is rejected with a DataValidationError-class result naming the offending
codes (rows with status "Q" are instead rejected with the
QuarantineError class). -/
theorem c5_context_validation (rows : List StockRow) (depot : DepotType) :
    ((validate_mask rows depot).1.isOk = true
        ↔ ∀ r ∈ rows, r.statut ∈ allowedStatuses depot)
    ∧ (quarantineRows rows = [] → offendingRows rows depot ≠ [] →
        (validate_mask rows depot).1
          = .dataValidationError ((offendingRows rows depot).map (fun r => r.statut))) := by
  constructor
  · constructor
    · intro hok
      rw [validate_mask] at hok
      by_cases hq : (((quarantineRows rows).map (fun r => r.lot)).dedup).isEmpty
      · rw [if_pos hq] at hok
        by_cases hb : (offendingRows rows depot).isEmpty
        · intro r hr
          have hbad : offendingRows rows depot = [] := List.isEmpty_iff.mp hb
          rw [offendingRows, List.filter_eq_nil_iff] at hbad
          have := hbad r hr
          simp only [Bool.not_not] at this
          exact List.elem_iff.mp (by simpa using this)
        · rw [if_neg hb] at hok
          simp [ValidationResult.isOk] at hok
      · rw [if_neg hq] at hok
        simp [ValidationResult.isOk] at hok
    · intro hall
      have hq : quarantineRows rows = [] := by
        rw [quarantineRows, List.filter_eq_nil_iff]
        intro r hr hcontra
        have hsq : r.statut = "Q" := by simpa using hcontra
        have := hall r hr
        rw [hsq] at this
        cases depot <;> simp [allowedStatuses] at this
      have hb : offendingRows rows depot = [] := by
        rw [offendingRows, List.filter_eq_nil_iff]
        intro r hr hcontra
        simp at hcontra
        exact hcontra (hall r hr)
      rw [validate_mask, hq]
      simp [hb, ValidationResult.isOk]
  · intro hq hb
    rw [validate_mask, hq]
    have hbne : (offendingRows rows depot).isEmpty = false := by
      rcases he : offendingRows rows depot with _ | ⟨a, l⟩
      · exact absurd he hb
      · rfl
    simp [hbne]

/-- C6: any row carrying quarantine status "Q" makes `validate_mask`
fail with the QuarantineError class regardless of the chosen context,
with exactly one quarantine-detected audit fact per distinct offending
lot recorded alongside the rejection; a set with exactly one status-Q
row yields exactly one such audit fact under either context. -/
theorem c6_quarantine_rejection :
    (∀ (rows : List StockRow) (depot : DepotType),
      (∃ r ∈ rows, r.statut = "Q") →
      ((validate_mask rows depot).1
          = .quarantineError ((quarantineRows rows).map (fun r => r.lot)).dedup
        ∧ (validate_mask rows depot).2
            = ((quarantineRows rows).map (fun r => r.lot)).dedup.map
                (fun l => ⟨AuditKind.quarantineDetected, l⟩)
        ∧ ∀ f ∈ (validate_mask rows depot).2, f.kind = AuditKind.quarantineDetected))
    ∧ (validate_mask [⟨"P1", "E1", "Q", "L1", 1, "UN"⟩] DepotType.Conforme).2.length = 1
    ∧ (validate_mask [⟨"P1", "E1", "Q", "L1", 1, "UN"⟩] DepotType.NonConforme).2.length = 1
    ∧ (validate_mask [⟨"P1", "E1", "Q", "L1", 1, "UN"⟩] DepotType.Conforme).1
        = .quarantineError ["L1"]
    ∧ (validate_mask [⟨"P1", "E1", "Q", "L1", 1, "UN"⟩] DepotType.NonConforme).1
        = .quarantineError ["L1"] := by
  refine ⟨?_, by decide, by decide, by decide, by decide⟩
  intro rows depot hex
  obtain ⟨r, hr, hrq⟩ := hex
  have hmem : r ∈ quarantineRows rows := by
    rw [quarantineRows, List.mem_filter]
    exact ⟨hr, by simp [hrq]⟩
  have hne : quarantineRows rows ≠ [] := by
    intro e
    rw [e] at hmem
    cases hmem
  have hq : (((quarantineRows rows).map (fun r => r.lot)).dedup).isEmpty = false := by
    rcases he : ((quarantineRows rows).map (fun r => r.lot)).dedup with _ | ⟨a, l⟩
    · rw [List.dedup_eq_nil, List.map_eq_nil_iff] at he
      exact absurd he hne
    · rw [he]
      rfl
  rw [validate_mask]
  simp only [hq, Bool.false_eq_true, if_false]
  refine ⟨by trivial, by trivial, ?_⟩
  intro f hf
  obtain ⟨l, _, rfl⟩ := List.mem_map.mp hf
  rfl

/-- C7: the lot-date extractor is total — for every input string it
returns either a valid calendar date or the explicit "not found" result
`none`; in particular a matching 8-digit run that is not a valid
calendar date (month 13) yields `none`, a string with no 8-digit run
yields `none`, and a leap-day lot identifier parses. -/
theorem c7_extract_lot_date_total :
    (∀ (s : String) (d : LotDate), extract_lot_date s = some d → d.valid = true)
    ∧ extract_lot_date "LOT20241301X" = none
    ∧ extract_lot_date "LOTX123" = none
    ∧ extract_lot_date "LOT20240229A" = some ⟨2024, 2, 29⟩ := by
  refine ⟨?_, by decide, by decide, by decide⟩
  intro s d h
  rw [extract_lot_date] at h
  cases hf : findDigitRun8 s.data with
  | none =>
      rw [hf] at h
      cases h
  | some run =>
      rw [hf] at h
      simp only [] at h
      by_cases hv : (parseYYYYMMDD run).valid = true
      · rw [if_pos hv] at h
        injection h with h2
        rw [← h2]
        exact hv
      · rw [if_neg hv] at h
        cases h

/-- C8: a counted quantity left blank (empty or null) is posted as
exactly 0 when the table is re-ingested by `handleSubmit`'s cleaning
step. -/
theorem c8_blank_counted_zero (data : List InventoryLine) (i : Nat)
    (row : InventoryLine) (hrow : data[i]? = some row)
    (hblank : row.quantite_reelle = QuantiteReelle.blank) :
    (cleanData data)[i]? = some (JsNum.val 0) := by
  rw [cleanData, List.getElem?_map, hrow]
  simp [cleanValue, hblank]

/-- Witness for C8: a one-row table whose counted quantity is blank
posts the value 0 at index 0. -/
theorem c8_blank_counted_zero_witness :
    (cleanData [⟨"A1", "E1", 5, QuantiteReelle.blank⟩])[0]?
      = some (JsNum.val 0) :=
  c8_blank_counted_zero [⟨"A1", "E1", 5, QuantiteReelle.blank⟩] 0
    ⟨"A1", "E1", 5, QuantiteReelle.blank⟩ rfl rfl

/-- C9: `StepEdit.handleSubmit` issues the process-data request exactly
when `validate` counts zero errors; and every payload it posts is the
cleaned table, in which every `quantite_reelle` is a number that is not
NaN and is ≥ 0, with blank entries mapped to exactly 0. -/
theorem c9_submit_validation (data : List InventoryLine) :
    ((handleSubmit data).isSome = true ↔ validate data = 0)
    ∧ (∀ payload, handleSubmit data = some payload →
        payload = cleanData data
        ∧ (∀ v ∈ payload, ∃ q, v = JsNum.val q ∧ 0 ≤ q)
        ∧ (∀ (i : Nat) (row : InventoryLine), data[i]? = some row →
            row.quantite_reelle = QuantiteReelle.blank →
            payload[i]? = some (JsNum.val 0))) := by
  constructor
  · rw [handleSubmit]
    by_cases hv : 0 < validate data
    · rw [if_pos hv]
      simp
      omega
    · rw [if_neg hv]
      simp
      omega
  · intro payload hp
    rw [handleSubmit] at hp
    by_cases hv : 0 < validate data
    · rw [if_pos hv] at hp
      cases hp
    · rw [if_neg hv] at hp
      injection hp with hp2
      have hzero : validate data = 0 := by omega
      have hrows : ∀ r ∈ data, rowErrors r.quantite_reelle = 0 := by
        intro r hr
        have := List.sum_eq_zero_iff.mp (by simpa [validate] using hzero)
        exact this _ (List.mem_map_of_mem (fun r => rowErrors r.quantite_reelle) hr)
      refine ⟨hp2.symm, ?_, ?_⟩
      · intro v hv2
        rw [← hp2] at hv2
        obtain ⟨r, hr, rfl⟩ := List.mem_map.mp hv2
        have hre := hrows r hr
        cases hq : r.quantite_reelle with
        | blank =>
            refine ⟨0, ?_, le_refl 0⟩
            simp [cleanValue, hq]
        | entry n =>
            cases n with
            | nan =>
                rw [hq] at hre
                simp [rowErrors] at hre
            | val q =>
                rw [hq] at hre
                rw [rowErrors] at hre
                by_cases hneg : q < 0
                · rw [if_pos hneg] at hre
                  cases hre
                · exact ⟨q, by simp [cleanValue, hq], not_lt.mp hneg⟩
      · intro i row hrow hblank
        rw [← hp2, cleanData, List.getElem?_map, hrow]
        simp [cleanValue, hblank]

/-- C10: the client never uploads a file with a wrong extension —
`StepSummary.uploadTemplate` issues its network request exactly when the
lowercased file name ends in ".xlsx" (otherwise it sets an error and
sends nothing), and `StepUpload.validateAndSetFile` keeps a selection
exactly when the lowercased name ends in ".csv" (otherwise the selection
is cleared and an error is set); checked on concrete names in both
directions. -/
theorem c10_extension_gates (fileName : String) :
    ((uploadTemplate fileName).requestSent = true
        ↔ endsWithSuffix (lowerName fileName) ".xlsx".data = true)
    ∧ ((uploadTemplate fileName).requestSent = false →
        (uploadTemplate fileName).errorMessage.isSome = true)
    ∧ ((validateAndSetFile fileName).1.isSome = true
        ↔ endsWithSuffix (lowerName fileName) ".csv".data = true)
    ∧ ((validateAndSetFile fileName).1.isSome = true →
        (validateAndSetFile fileName).1 = some fileName)
    ∧ ((validateAndSetFile fileName).1 = none →
        (validateAndSetFile fileName).2.isSome = true)
    ∧ (uploadTemplate "Recap.XLSX").requestSent = true
    ∧ (uploadTemplate "recap.txt").requestSent = false
    ∧ (uploadTemplate "recap.txt").errorMessage.isSome = true
    ∧ (validateAndSetFile "Mask.CSV").1 = some "Mask.CSV"
    ∧ (validateAndSetFile "mask.xls").1 = none
    ∧ (validateAndSetFile "mask.xls").2.isSome = true := by
  refine ⟨?_, ?_, ?_, ?_, ?_, by decide, by decide, by decide, by decide, by decide,
    by decide⟩
  · by_cases hx : endsWithSuffix (lowerName fileName) ".xlsx".data = true
    · simp [uploadTemplate, hx]
    · simp [uploadTemplate, hx]
  · by_cases hx : endsWithSuffix (lowerName fileName) ".xlsx".data = true
    · simp [uploadTemplate, hx]
    · simp only [Bool.not_eq_true] at hx
      simp [uploadTemplate, hx]
  · by_cases hc : endsWithSuffix (lowerName fileName) ".csv".data = true
    · simp [validateAndSetFile, hc]
    · simp [validateAndSetFile, hc]
  · by_cases hc : endsWithSuffix (lowerName fileName) ".csv".data = true
    · simp [validateAndSetFile, hc]
    · simp only [Bool.not_eq_true] at hc
      simp [validateAndSetFile, hc]
  · by_cases hc : endsWithSuffix (lowerName fileName) ".csv".data = true
    · simp [validateAndSetFile, hc]
    · simp only [Bool.not_eq_true] at hc
      simp [validateAndSetFile, hc]

end Moulinette
